import Mathlib

/-!
Verification of the scenario-player utility module (`scenario_player/utils.py`).

The definitions below are shallow embeddings of the Python source:

* `get_gas_price_strategy` (utils.py lines 186-196),
* `get_or_deploy_token` (utils.py lines 117-157),
* `FrozenDict` (utils.py lines 41-65),
* `LogBuffer` (utils.py lines 68-86),
* `wait_for_txs` (utils.py lines 94-114).

Machine integers are modelled as `Nat`/`Int`; time is modelled in ticks of
0.1 s (the transaction-level poll interval), so `time.sleep(.1)` advances the
clock by 1 tick, `time.sleep(.5)` by 5 ticks, and a timeout of `t` seconds is
`10 * t` ticks.  Fallible code returns `Except`.
-/

/-- Python exceptions raised by the modelled code. -/
inductive PyErr where
  | typeError
  | indexError
  | valueError
  | addressWithoutCode (address : String)
deriving DecidableEq

/-! ### `get_gas_price_strategy` (utils.py lines 186-196) -/

/-- The argument of `get_gas_price_strategy`: a Python `int`, a Python `str`,
or any other value (which compares unequal to both `'fast'` and `'medium'`
and is not an `int`). -/
inductive GasPriceValue where
  | int (n : Int)
  | str (s : String)
  | other
deriving DecidableEq

/-- The strategy functions `get_gas_price_strategy` can return: the local
closure `fixed_gas_price` capturing the configured integer, or one of the two
imported web3 strategies. -/
inductive GasStrategy where
  | fixed_gas_price (gasPrice : Int)
  | fast_gas_price_strategy
  | medium_gas_price_strategy
deriving DecidableEq

/-- Calling a returned strategy on `(web3, tx)` (both opaque, modelled as
`Nat` handles).  `fixed_gas_price` ignores both arguments and returns the
captured integer (utils.py lines 188-189); the two web3 strategies are
external, so their behaviour is a parameter. -/
def runGasStrategy (fastImpl mediumImpl : Nat → Nat → Int) :
    GasStrategy → Nat → Nat → Int
  | .fixed_gas_price n, _, _ => n
  | .fast_gas_price_strategy, web3, tx => fastImpl web3 tx
  | .medium_gas_price_strategy, web3, tx => mediumImpl web3 tx

/-- Embedding of `get_gas_price_strategy` (utils.py lines 186-196):
`isinstance(gas_price, int)` first, then the two string comparisons, else
`ValueError`. -/
def get_gas_price_strategy : GasPriceValue → Except PyErr GasStrategy
  | .int n => .ok (.fixed_gas_price n)
  | .str s =>
    if s = "fast" then .ok .fast_gas_price_strategy
    else if s = "medium" then .ok .medium_gas_price_strategy
    else .error .valueError
  | .other => .error .valueError

/-! ### `get_or_deploy_token` (utils.py lines 117-157) -/

/-- The `token` section of the scenario description: the three keys the code
reads.  `none` models an absent key. -/
structure TokenConfigModel where
  address : Option String
  name : Option String
  symbol : Option String
deriving DecidableEq

/-- A scenario description, restricted to the `token` key which is all
`get_or_deploy_token` reads. -/
structure ScenarioModel where
  token : Option TokenConfigModel
deriving DecidableEq

/-- Outcome of `get_or_deploy_token`: either a proxy for the already-deployed
contract at the configured address, or a fresh deployment with the name,
symbol, and confirmation count passed to `deploy_solidity_contract`. -/
inductive TokenOutcome where
  | reused (address : String)
  | deployed (name symbol : String) (confirmations : Nat)
deriving DecidableEq

/-- The generated default token name
`f"Scenario Test Token {token_id!s} {now:%Y-%m-%dT%H:%M}"` (utils.py line
139); the uuid and the formatted timestamp are opaque strings. -/
def defaultTokenName (tokenId now : String) : String :=
  "Scenario Test Token " ++ tokenId ++ " " ++ now

/-- The generated default token symbol `f"T{token_id!s:.3}"` (utils.py line
140): a `T` followed by the first three characters of the uuid string. -/
def defaultTokenSymbol (tokenId : String) : String :=
  "T" ++ tokenId.take 3

/-- Modelled from the spec: `check_address_has_code` is imported from
`raiden.network.rpc.client`, which is not part of the provided sources.  The
spec for the contract resolver says it raises "if a configured address has no
deployed code"; `hasCode` is the chain state consulted. -/
def check_address_has_code (hasCode : String → Bool) (address : String) :
    Except PyErr Unit :=
  if hasCode address then .ok () else .error (.addressWithoutCode address)

/-- The deployment branch of `get_or_deploy_token` (utils.py lines 137-157):
name and symbol default to generated values but configured values win;
`deploy_solidity_contract` (external) is called with `confirmations=1`. -/
def deployTokenBranch (tokenConfig : TokenConfigModel) (tokenId now : String) :
    Except PyErr TokenOutcome :=
  .ok (.deployed
    (tokenConfig.name.getD (defaultTokenName tokenId now))
    (tokenConfig.symbol.getD (defaultTokenSymbol tokenId))
    1)

/-- Embedding of `get_or_deploy_token` (utils.py lines 117-157).
`scenario.get('token', {})` with the falsy-check on line 122 yields an empty
config when the key is absent; `if address:` is Python truthiness, so an
absent or empty address string selects the deployment branch. -/
def get_or_deploy_token (hasCode : String → Bool) (tokenId now : String)
    (scenario : ScenarioModel) : Except PyErr TokenOutcome :=
  let tokenConfig := scenario.token.getD ⟨none, none, none⟩
  match tokenConfig.address with
  | some address =>
    if address ≠ "" then
      match check_address_has_code hasCode address with
      | .error e => .error e
      | .ok _ => .ok (.reused address)
    else
      deployTokenBranch tokenConfig tokenId now
  | none => deployTokenBranch tokenConfig tokenId now

/-! ### `LogBuffer` (utils.py lines 68-86) -/

/-- The characters Python's `str.splitlines` treats as line boundaries
(`\r\n` is additionally handled as a single boundary in `splitlinesGo`). -/
def isLineBreak (c : Char) : Bool :=
  c = '\n' || c = '\r' || c = '\x0b' || c = '\x0c' ||
  c = '\x1c' || c = '\x1d' || c = '\x1e' || c = '\x85' ||
  c = '\u2028' || c = '\u2029'

/-- Worker for `splitlines`: `acc` holds the current line reversed. -/
def splitlinesGo : List Char → List Char → List (List Char)
  | [], acc => if acc.isEmpty then [] else [acc.reverse]
  | '\r' :: '\n' :: rest, acc => acc.reverse :: splitlinesGo rest []
  | c :: rest, acc =>
    if isLineBreak c then acc.reverse :: splitlinesGo rest []
    else splitlinesGo rest (c :: acc)

/-- Python `content.splitlines()`: line terminators are dropped, a trailing
fragment without a terminator forms the last line, and `''` yields `[]`. -/
def splitlines (content : List Char) : List (List Char) :=
  splitlinesGo content []

/-- The `LogBuffer` state: a bounded deque of lines, newest line first
(deque index 0), plus its capacity (`maxlen`). -/
structure LogBuffer where
  capacity : Nat
  buffer : List (List Char)
deriving DecidableEq

/-- Embedding of `LogBuffer.__init__` (utils.py lines 69-70), i.e. of
`deque([''], maxlen=capacity)`.
A `maxlen` of 0 keeps nothing, otherwise the single empty line is kept. -/
def LogBuffer.init (capacity : Nat) : LogBuffer :=
  ⟨capacity, [([] : List Char)].take capacity⟩

/-- Embedding of `deque.appendleft` with `maxlen`: the new element goes in front and the
oldest (rightmost) element is discarded beyond capacity. -/
def appendleftB (cap : Nat) (x : List Char) (buf : List (List Char)) :
    List (List Char) :=
  (x :: buf).take cap

/-- Embedding of `deque.extendleft` with `maxlen`: repeated `appendleft` over the
sequence. -/
def extendleftB (cap : Nat) (xs : List (List Char)) (buf : List (List Char)) :
    List (List Char) :=
  xs.foldl (fun b x => appendleftB cap x b) buf

/-- Embedding of `LogBuffer.write` (utils.py lines 72-79).  Python evaluates
`self.buffer[0]` (IndexError on an empty deque) and `lines[0]` (IndexError
when `splitlines` returned no lines, i.e. `content == ''`) before any
mutation; on success the newest line is extended with the first fragment and
the remaining lines are prepended. -/
def LogBuffer.write (lb : LogBuffer) (content : List Char) :
    Except PyErr LogBuffer :=
  let lines := splitlines content
  match lb.buffer, lines with
  | [], _ => .error .indexError
  | _, [] => .error .indexError
  | b0 :: brest, l0 :: lrest =>
    let buf1 := (b0 ++ l0) :: brest
    if lines = [[]] then
      .ok ⟨lb.capacity, appendleftB lb.capacity [] buf1⟩
    else
      .ok ⟨lb.capacity, extendleftB lb.capacity lrest buf1⟩

/-- A finite sequence of `write` calls.  A write that raises leaves the
buffer exactly as it was (the exception is thrown before any mutation). -/
def applyWrites (lb : LogBuffer) : List (List Char) → LogBuffer
  | [] => lb
  | c :: rest =>
    match lb.write c with
    | .ok lb' => applyWrites lb' rest
    | .error _ => applyWrites lb rest

/-! ### `FrozenDict` (utils.py lines 41-65) -/

/-- The observable state of a `FrozenDict`: the items fixed at construction
and the cached `_hash` (`None` until the first `__hash__` call).  Python's
`hash` of an item tuple is supplied externally as `hashKV`. -/
structure FrozenDict (α β : Type) where
  items : List (α × β)
  hashCache : Option Nat

/-- Embedding of `FrozenDict.__init__` (utils.py lines 43-45): store the items, set
`_hash` to `None`. -/
def FrozenDict.init (items : List (α × β)) : FrozenDict α β :=
  ⟨items, none⟩

/-- The hash value `FrozenDict.__hash__` computes (utils.py lines 48-52):
starting from 0, XOR the hash of every item. -/
def frozenHashValue (hashKV : α × β → Nat) (items : List (α × β)) : Nat :=
  items.foldl (fun h p => h ^^^ hashKV p) 0

/-- Embedding of `FrozenDict.__hash__` (utils.py lines 47-53): compute and cache on first
call, return the cache afterwards. -/
def FrozenDict.hashF (hashKV : α × β → Nat) (d : FrozenDict α β) :
    Nat × FrozenDict α β :=
  match d.hashCache with
  | some h => (h, d)
  | none =>
    let h := frozenHashValue hashKV d.items
    (h, { d with hashCache := some h })

/-- The operations exercised on a `FrozenDict`: the four overridden mutators
and `__hash__`. -/
inductive DictOp (α β : Type) where
  | setitem (k : α) (v : β)
  | delitem (k : α)
  | update (kvs : List (α × β))
  | clear
  | hashOp
deriving DecidableEq

/-- Whether an operation is one of the overridden mutators (utils.py lines
55-65), all of which raise `TypeError`. -/
def DictOp.isMutation : DictOp α β → Bool
  | .setitem _ _ => true
  | .delitem _ => true
  | .update _ => true
  | .clear => true
  | .hashOp => false

/-- Apply one operation: mutators raise `TypeError` and leave the state
untouched; `__hash__` returns a value and may fill the cache. -/
def applyDictOp (hashKV : α × β → Nat) (d : FrozenDict α β) :
    DictOp α β → Except PyErr Nat × FrozenDict α β
  | .setitem _ _ => (.error .typeError, d)
  | .delitem _ => (.error .typeError, d)
  | .update _ => (.error .typeError, d)
  | .clear => (.error .typeError, d)
  | .hashOp =>
    let (h, d') := FrozenDict.hashF hashKV d
    (.ok h, d')

/-- Run a sequence of operations, collecting each call's outcome. -/
def runDictOps (hashKV : α × β → Nat) (d : FrozenDict α β) :
    List (DictOp α β) → List (Except PyErr Nat) × FrozenDict α β
  | [] => ([], d)
  | op :: rest =>
    let r := applyDictOp hashKV d op
    let rs := runDictOps hashKV r.2 rest
    (r.1 :: rs.1, rs.2)

/-! ### `wait_for_txs` (utils.py lines 94-114)

Time is counted in ticks of 0.1 s.  `time.sleep(.1)` after every
`getTransaction` call advances the clock by 1 tick and `time.sleep(.5)` at the
end of an iteration by 5 ticks, so an iteration polling `n` hashes takes
`n + 5` ticks.  The `timeout` argument is likewise in ticks (the Python
default of 180 s is 1800 ticks), and the `int(remaining_timeout)` of the
logging condition is `remainingTicks / 10`. -/

/-- Transaction identifiers (`txhashes`). -/
abbrev TxHash := String

/-- The relevant part of what `client.web3.eth.getTransaction` returns: a
transaction record carries `blockNumber`, which is `None` while pending. -/
structure TxReceipt where
  blockNumber : Option Nat
deriving DecidableEq

/-- One `getTransaction` call either answers (`found`, with `none` when the
hash is unknown) or raises a network error. -/
inductive QueryResult where
  | found (tx : Option TxReceipt)
  | netError
deriving DecidableEq

/-- The chain client's behaviour: what `getTransaction` does for a given hash
at a given tick. -/
abbrev Query := Nat → TxHash → QueryResult

/-- The check on utils.py line 109: `tx and tx['blockNumber'] is not None`. -/
def txIncluded : QueryResult → Bool
  | .found (some tx) => tx.blockNumber.isSome
  | _ => false

/-- Observable events of a run: the `log.debug` status line (with its tick,
the `outstanding` count and `int(remaining_timeout)` in seconds), and each
transaction-level poll (hash, tick, and whether the transaction was seen as
included). -/
inductive Event where
  | log (t outstanding remainingSecs : Nat)
  | poll (h : TxHash) (t : Nat) (included : Bool)
deriving DecidableEq

/-- The errors `wait_for_txs` can raise: the `ScenarioTxError` naming the
hashes still outstanding at timeout (utils.py line 114), or an uncaught
network error from the chain client propagating out of the loop. -/
inductive WaitError where
  | scenarioTxError (txhashes : List TxHash)
  | netError
deriving DecidableEq

/-- The loop state of `wait_for_txs`: the mutable local copy of `txhashes`,
the `outstanding` counter (initially `False`, i.e. 0), and the elapsed ticks
since `start`. -/
structure WaitState where
  pending : List TxHash
  outstanding : Nat
  elapsed : Nat
deriving DecidableEq

/-- The logging condition on utils.py line 100:
`outstanding != len(txhashes) or int(remaining_timeout) % 10 == 0`. -/
def logCond (timeout : Nat) (s : WaitState) : Bool :=
  (s.outstanding != s.pending.length) ||
    (((timeout - s.elapsed) / 10) % 10 == 0)

/-- The inner `for txhash in txhashes[:]` loop (utils.py lines 107-111): poll
each hash of the snapshot, remove a hash from `pending` when its transaction
is seen in a block, sleep 0.1 s after each poll.  The first component is
`true` when a `getTransaction` call raised a network error, which aborts the
pass (there is no try/except around the call); the recorded events stop at
the failing call. -/
def pollPass (q : Query) : List TxHash → List TxHash → Nat →
    Bool × List TxHash × List Event
  | [], pending, _ => (false, pending, [])
  | h :: rest, pending, t =>
    match q t h with
    | .netError => (true, pending, [])
    | .found tx =>
      let inc := txIncluded (.found tx)
      let pending' := if inc then pending.erase h else pending
      let r := pollPass q rest pending' (t + 1)
      (r.1, r.2.1, .poll h t inc :: r.2.2)

/-- The status-log events one iteration emits (utils.py lines 100-106): one
`log.debug` line when `logCond` holds, none otherwise. -/
def iterLogEvs (timeout : Nat) (s : WaitState) : List Event :=
  if logCond timeout s then
    [.log s.elapsed s.pending.length ((timeout - s.elapsed) / 10)]
  else []

/-- The `outstanding` counter after one iteration: updated to the pending
count exactly when the iteration logged (utils.py line 101). -/
def iterOut (timeout : Nat) (s : WaitState) : Nat :=
  if logCond timeout s then s.pending.length else s.outstanding

/-- The loop state after one complete iteration: the pending list after the
`pollPass`, the updated `outstanding`, and the clock advanced by one tick per
polled hash plus the 0.5 s sleep (utils.py line 112). -/
def iterNext (q : Query) (timeout : Nat) (s : WaitState) : WaitState :=
  ⟨(pollPass q s.pending s.pending s.elapsed).2.1, iterOut timeout s,
    s.elapsed + s.pending.length + 5⟩

/-- The `while` loop of `wait_for_txs` (utils.py lines 98-112), as a
fuel-indexed transcription: `none` means the fuel ran out before the loop
exited.  Each iteration checks the loop condition, logs when `logCond` holds
(updating `outstanding`), runs a `pollPass`, and sleeps 0.5 s; a network
error propagating from a poll aborts the loop. -/
def waitLoopF (q : Query) (timeout : Nat) :
    Nat → WaitState → Option (Except WaitError Unit × List Event)
  | 0, _ => none
  | fuel + 1, s =>
    if s.pending ≠ [] ∧ s.elapsed < timeout then
      if (pollPass q s.pending s.pending s.elapsed).1 then
        some (.error .netError,
          iterLogEvs timeout s ++ (pollPass q s.pending s.pending s.elapsed).2.2)
      else
        match waitLoopF q timeout fuel (iterNext q timeout s) with
        | none => none
        | some (r, evs) =>
          some (r, iterLogEvs timeout s ++
            (pollPass q s.pending s.pending s.elapsed).2.2 ++ evs)
    else
      some
        (if s.pending = [] then .ok ()
         else .error (.scenarioTxError s.pending), [])

/-- The `while` loop of `wait_for_txs` (utils.py lines 98-112) as a
well-founded recursion: each iteration advances the clock by at least 5
ticks, so `timeout - elapsed` decreases. -/
def waitLoop (q : Query) (timeout : Nat) (s : WaitState) :
    Except WaitError Unit × List Event :=
  if h : s.pending ≠ [] ∧ s.elapsed < timeout then
    if (pollPass q s.pending s.pending s.elapsed).1 then
      (.error .netError,
        iterLogEvs timeout s ++ (pollPass q s.pending s.pending s.elapsed).2.2)
    else
      ((waitLoop q timeout (iterNext q timeout s)).1,
        iterLogEvs timeout s ++ (pollPass q s.pending s.pending s.elapsed).2.2 ++
          (waitLoop q timeout (iterNext q timeout s)).2)
  else
    (if s.pending = [] then .ok ()
     else .error (.scenarioTxError s.pending), [])
termination_by timeout - s.elapsed
decreasing_by all_goals simp only [iterNext]; omega

/-- Embedding of `wait_for_txs` (utils.py lines 94-114).  The Python function
first copies the caller's list (line 97); in this pure embedding the copy is
implicit (the aliasing behaviour is modelled separately by
`wait_for_txs_store`).  Returns the result together with the run's event
trace. -/
def wait_for_txs (q : Query) (txhashes : List TxHash)
    (timeout : Nat) : Except WaitError Unit × List Event :=
  waitLoop q timeout ⟨txhashes, 0, 0⟩

/-- Whether the trace records hash `x` as observed included in a block. -/
def observedIncluded (evs : List Event) (x : TxHash) : Bool :=
  evs.any fun e =>
    match e with
    | .poll h _ inc => inc && h == x
    | _ => false

/-- The identifiers of `txs` that the trace never observed as included. -/
def unconfirmedIds (txs : List TxHash) (evs : List Event) : List TxHash :=
  txs.filter fun x => !observedIncluded evs x

/-- The ticks at which transaction-level polls happen, in trace order. -/
def pollTimes (evs : List Event) : List Nat :=
  evs.filterMap fun e =>
    match e with
    | .poll _ t _ => some t
    | _ => none

/-- The status-log entries of a trace: (tick, outstanding, remaining secs). -/
def logEntries (evs : List Event) : List (Nat × Nat × Nat) :=
  evs.filterMap fun e =>
    match e with
    | .log t o r => some (t, o, r)
    | _ => none

/-- Two consecutive transaction-level polls are between 0.1 s and 0.6 s
apart (1 tick within an iteration, 6 ticks across the 0.5 s iteration
sleep). -/
def pollGap (t1 t2 : Nat) : Prop := t1 < t2 ∧ t2 ≤ t1 + 6

/-- A status-log entry is justified when the remaining whole seconds are a
multiple of ten or the outstanding count changed since the previous entry. -/
def logJustified (p1 p2 : Nat × Nat × Nat) : Prop :=
  p2.2.2 % 10 = 0 ∨ p2.2.1 ≠ p1.2.1

/-! ### Store-level model for the aliasing behaviour of `wait_for_txs`

The caller passes a reference to its list; line 97 (`txhashes = txhashes[:]`)
copies it into a fresh cell, and every `txhashes.remove(...)` mutates only
the copy.  The store is a list of list-cells addressed by index. -/

/-- A heap of Python list objects, addressed by index. -/
abbrev Store := List (List TxHash)

/-- Read a list cell. -/
def storeGet (st : Store) (r : Nat) : List TxHash := st.getD r []

/-- The inner poll loop, store-level: `txhashes.remove(txhash)` writes the
cell `ref` holding the local copy. -/
def pollPassStore (q : Query) : List TxHash → Store → Nat → Nat →
    Bool × Store
  | [], st, _, _ => (false, st)
  | h :: rest, st, ref, t =>
    match q t h with
    | .netError => (true, st)
    | .found tx =>
      let inc := txIncluded (.found tx)
      let st' := if inc then st.set ref ((storeGet st ref).erase h) else st
      pollPassStore q rest st' ref (t + 1)

/-- The `while` loop, store-level: the pending list is read from cell `ref`
each iteration. -/
def waitLoopStore (q : Query) (timeout : Nat) (st : Store)
    (ref outstanding elapsed : Nat) : Except WaitError Unit × Store :=
  if h : storeGet st ref ≠ [] ∧ elapsed < timeout then
    if (pollPassStore q (storeGet st ref) st ref elapsed).1 then
      (.error .netError, (pollPassStore q (storeGet st ref) st ref elapsed).2)
    else
      waitLoopStore q timeout
        (pollPassStore q (storeGet st ref) st ref elapsed).2 ref
        (if (outstanding != (storeGet st ref).length) ||
            (((timeout - elapsed) / 10) % 10 == 0)
         then (storeGet st ref).length else outstanding)
        (elapsed + (storeGet st ref).length + 5)
  else
    (if storeGet st ref = [] then .ok ()
     else .error (.scenarioTxError (storeGet st ref)), st)
termination_by timeout - elapsed
decreasing_by omega

/-- Store-level embedding of `wait_for_txs`: the caller's list lives in cell
`ref`; line 97 allocates a fresh cell holding a copy, and the loop works on
that copy. -/
def wait_for_txs_store (q : Query) (st : Store) (ref : Nat)
    (timeout : Nat) : Except WaitError Unit × Store :=
  waitLoopStore q timeout (st ++ [storeGet st ref]) st.length 0 0

/-! ### Concrete chain-client behaviours used in witnesses -/

/-- A client that reports every hash as already included in block 1. -/
def qAlwaysIncluded : Query := fun _ _ => .found (some ⟨some 1⟩)

/-- A client whose very first query raises a network error and that reports
every hash as included from tick 1 on: a single transient failure. -/
def qFailsAtZero : Query := fun t _ =>
  if t = 0 then .netError else .found (some ⟨some 1⟩)

/-- A client that confirms `tx1` immediately and every other hash only from
tick 18 on. -/
def qConfirmLate : Query := fun t h =>
  if h == "tx1" then .found (some ⟨some 1⟩)
  else if 18 ≤ t then .found (some ⟨some 2⟩)
  else .found none

/-! ## Helper lemmas -/

theorem extendleftB_length_le (cap : Nat) :
    ∀ (xs : List (List Char)) (buf : List (List Char)),
      buf.length ≤ cap → (extendleftB cap xs buf).length ≤ cap := by
  intro xs
  induction xs with
  | nil => intro buf h; simpa [extendleftB] using h
  | cons x xs ih =>
    intro buf h
    have hstep : (appendleftB cap x buf).length ≤ cap := by
      simp [appendleftB]
    simpa [extendleftB, List.foldl_cons] using ih (appendleftB cap x buf) hstep

theorem LogBuffer.write_ok_bound {lb lb' : LogBuffer} {c : List Char}
    (hinv : lb.buffer.length ≤ lb.capacity) (hw : lb.write c = .ok lb') :
    lb'.capacity = lb.capacity ∧ lb'.buffer.length ≤ lb.capacity := by
  unfold LogBuffer.write at hw
  rcases hbuf : lb.buffer with _ | ⟨b0, brest⟩
  · simp [hbuf] at hw
  · rcases hlines : splitlines c with _ | ⟨l0, lrest⟩
    · simp [hbuf, hlines] at hw
    · rw [hbuf] at hinv
      rw [hbuf, hlines] at hw
      dsimp only at hw
      split at hw
      · injection hw with hw'
        subst hw'
        exact ⟨rfl, by simp [appendleftB]⟩
      · injection hw with hw'
        subst hw'
        exact ⟨rfl, extendleftB_length_le lb.capacity lrest _ (by simpa using hinv)⟩

theorem applyWrites_bound :
    ∀ (contents : List (List Char)) (lb : LogBuffer),
      lb.buffer.length ≤ lb.capacity →
      (applyWrites lb contents).buffer.length ≤ lb.capacity ∧
        (applyWrites lb contents).capacity = lb.capacity := by
  intro contents
  induction contents with
  | nil => intro lb h; exact ⟨h, rfl⟩
  | cons c rest ih =>
    intro lb h
    rcases hw : lb.write c with e | lb'
    · simpa [applyWrites, hw] using ih lb h
    · have hb := LogBuffer.write_ok_bound h hw
      have := ih lb' (by rw [hb.1]; exact hb.2)
      rw [hb.1] at this
      simpa [applyWrites, hw] using this

theorem frozenHashValue_perm (hashKV : α × β → Nat)
    {l₁ l₂ : List (α × β)} (h : l₁.Perm l₂) :
    frozenHashValue hashKV l₁ = frozenHashValue hashKV l₂ := by
  unfold frozenHashValue
  suffices hgen : ∀ b : Nat,
      l₁.foldl (fun h p => h ^^^ hashKV p) b =
        l₂.foldl (fun h p => h ^^^ hashKV p) b from hgen 0
  induction h with
  | nil => intro b; rfl
  | cons x _ ih => intro b; simpa [List.foldl_cons] using ih (b ^^^ hashKV x)
  | swap x y l =>
    intro b
    have hxy : b ^^^ hashKV y ^^^ hashKV x = b ^^^ hashKV x ^^^ hashKV y := by
      rw [Nat.xor_assoc, Nat.xor_assoc, Nat.xor_comm (hashKV y) (hashKV x)]
    simp [List.foldl_cons, hxy]
  | trans _ _ ih₁ ih₂ => intro b; exact (ih₁ b).trans (ih₂ b)

theorem runDictOps_spec (hashKV : α × β → Nat) (items : List (α × β)) :
    ∀ (ops : List (DictOp α β)) (d : FrozenDict α β),
      d.items = items →
      (d.hashCache = none ∨
        d.hashCache = some (frozenHashValue hashKV items)) →
      (runDictOps hashKV d ops).2.items = items ∧
      ∀ pr ∈ ops.zip (runDictOps hashKV d ops).1,
        (pr.1.isMutation = true → pr.2 = .error .typeError) ∧
        (pr.1 = .hashOp → pr.2 = .ok (frozenHashValue hashKV items)) := by
  intro ops
  induction ops with
  | nil => intro d hitems _; exact ⟨hitems, by simp⟩
  | cons op rest ih =>
    intro d hitems hcache
    have hstep :
        (applyDictOp hashKV d op).2.items = items ∧
        ((applyDictOp hashKV d op).2.hashCache = none ∨
          (applyDictOp hashKV d op).2.hashCache =
            some (frozenHashValue hashKV items)) ∧
        ((op.isMutation = true →
            (applyDictOp hashKV d op).1 = .error .typeError) ∧
          (op = .hashOp →
            (applyDictOp hashKV d op).1 =
              .ok (frozenHashValue hashKV items))) := by
      cases op with
      | setitem k v => exact ⟨hitems, hcache, by simp [applyDictOp], by simp⟩
      | delitem k => exact ⟨hitems, hcache, by simp [applyDictOp], by simp⟩
      | update kvs => exact ⟨hitems, hcache, by simp [applyDictOp], by simp⟩
      | clear => exact ⟨hitems, hcache, by simp [applyDictOp], by simp⟩
      | hashOp =>
        rcases hcache with hnone | hsome
        · refine ⟨?_, ?_, ?_, ?_⟩ <;>
            simp [applyDictOp, FrozenDict.hashF, hnone, hitems,
              DictOp.isMutation]
        · refine ⟨?_, ?_, ?_, ?_⟩ <;>
            simp [applyDictOp, FrozenDict.hashF, hsome, hitems,
              DictOp.isMutation]
    have ihr := ih (applyDictOp hashKV d op).2 hstep.1 hstep.2.1
    refine ⟨by simpa [runDictOps] using ihr.1, ?_⟩
    intro pr hpr
    simp only [runDictOps, List.zip_cons_cons, List.mem_cons] at hpr
    rcases hpr with hhead | htail
    · subst hhead; exact hstep.2.2
    · exact ihr.2 pr htail

/-! ## Claim theorems -/

/-- C10: `get_gas_price_strategy` is total over its accepted inputs and
raises exactly otherwise: an integer yields a strategy returning that same
integer for every `(web3, tx)`, the strings `fast` and `medium` yield the
corresponding named web3 strategies, and every other value raises
`ValueError`. -/
theorem get_gas_price_strategy_spec (fastImpl mediumImpl : Nat → Nat → Int)
    (n : Int) (web3 tx : Nat) (s : String)
    (h1 : s ≠ "fast") (h2 : s ≠ "medium") :
    get_gas_price_strategy (.int n) = .ok (.fixed_gas_price n) ∧
    runGasStrategy fastImpl mediumImpl (.fixed_gas_price n) web3 tx = n ∧
    get_gas_price_strategy (.str "fast") = .ok .fast_gas_price_strategy ∧
    get_gas_price_strategy (.str "medium") = .ok .medium_gas_price_strategy ∧
    get_gas_price_strategy (.str s) = .error .valueError ∧
    get_gas_price_strategy .other = .error .valueError := by
  refine ⟨rfl, rfl, rfl, rfl, ?_, rfl⟩
  simp [get_gas_price_strategy, h1, h2]

/-- Witness for C10 at concrete inputs. -/
theorem get_gas_price_strategy_spec_witness :
    ("slow" ≠ "fast") ∧ ("slow" ≠ "medium") ∧
    (get_gas_price_strategy (.int 7) = .ok (.fixed_gas_price 7) ∧
      runGasStrategy (fun _ _ => 1) (fun _ _ => 2) (.fixed_gas_price 7) 0 0 = 7 ∧
      get_gas_price_strategy (.str "fast") = .ok .fast_gas_price_strategy ∧
      get_gas_price_strategy (.str "medium") = .ok .medium_gas_price_strategy ∧
      get_gas_price_strategy (.str "slow") = .error .valueError ∧
      get_gas_price_strategy .other = .error .valueError) :=
  ⟨by decide, by decide,
    get_gas_price_strategy_spec (fun _ _ => 1) (fun _ _ => 2) 7 0 0 "slow"
      (by decide) (by decide)⟩

/-- C8: every mutation attempt on a `FrozenDict` raises `TypeError`, the
items stay exactly those supplied at construction through any sequence of
operations, every `__hash__` call returns the same XOR-of-item-hashes value
(so it is stable across repeated calls), and that value is invariant under
permutation of the item list, i.e. independent of insertion order. -/
theorem frozen_dict_spec {α β : Type} (hashKV : α × β → Nat)
    (items items' : List (α × β)) (ops : List (DictOp α β))
    (hperm : items.Perm items') :
    (runDictOps hashKV (FrozenDict.init items) ops).2.items = items ∧
    (∀ pr ∈ ops.zip (runDictOps hashKV (FrozenDict.init items) ops).1,
      pr.1.isMutation = true → pr.2 = Except.error PyErr.typeError) ∧
    (∀ pr ∈ ops.zip (runDictOps hashKV (FrozenDict.init items) ops).1,
      pr.1 = DictOp.hashOp →
        pr.2 = Except.ok (frozenHashValue hashKV items)) ∧
    frozenHashValue hashKV items = frozenHashValue hashKV items' := by
  have h := runDictOps_spec hashKV items ops (FrozenDict.init items) rfl
    (Or.inl rfl)
  exact ⟨h.1, fun pr hpr => (h.2 pr hpr).1, fun pr hpr => (h.2 pr hpr).2,
    frozenHashValue_perm hashKV hperm⟩

/-- Witness for C8 at concrete inputs: two insertion orders of the same
items, a run mixing mutation attempts and two hash calls. -/
theorem frozen_dict_spec_witness :
    ([((1 : Nat), (2 : Nat)), (3, 4)].Perm [(3, 4), (1, 2)]) ∧
    ((runDictOps (fun p => p.1 + p.2) (FrozenDict.init [(1, 2), (3, 4)])
        [.setitem 5 6, .hashOp, .clear, .hashOp]).2.items = [(1, 2), (3, 4)] ∧
      (∀ pr ∈ [DictOp.setitem 5 6, .hashOp, .clear, .hashOp].zip
          (runDictOps (fun p => p.1 + p.2) (FrozenDict.init [(1, 2), (3, 4)])
            [.setitem 5 6, .hashOp, .clear, .hashOp]).1,
        pr.1.isMutation = true → pr.2 = Except.error PyErr.typeError) ∧
      (∀ pr ∈ [DictOp.setitem 5 6, .hashOp, .clear, .hashOp].zip
          (runDictOps (fun p => p.1 + p.2) (FrozenDict.init [(1, 2), (3, 4)])
            [.setitem 5 6, .hashOp, .clear, .hashOp]).1,
        pr.1 = DictOp.hashOp →
          pr.2 = Except.ok (frozenHashValue (fun p => p.1 + p.2)
            [(1, 2), (3, 4)])) ∧
      frozenHashValue (fun p => p.1 + p.2) [((1 : Nat), (2 : Nat)), (3, 4)] =
        frozenHashValue (fun p => p.1 + p.2) [(3, 4), (1, 2)]) :=
  ⟨by decide,
    frozen_dict_spec (fun p => p.1 + p.2) [(1, 2), (3, 4)] [(3, 4), (1, 2)]
      [.setitem 5 6, .hashOp, .clear, .hashOp] (by decide)⟩

/-- C9 (amended): through every finite sequence of writes, the buffer of a
`LogBuffer` constructed with capacity `N` never holds more than `N` lines:
each successful write extends the newest line and prepends the remaining
lines, with the bounded deque discarding the oldest lines beyond capacity,
and a write that raises leaves the buffer unchanged. -/
theorem log_buffer_bounded (capacity : Nat) (contents : List (List Char)) :
    (applyWrites (LogBuffer.init capacity) contents).buffer.length ≤
      capacity := by
  have hbase : (LogBuffer.init capacity).buffer.length ≤ capacity := by
    simp [LogBuffer.init]
  simpa [LogBuffer.init] using
    (applyWrites_bound contents (LogBuffer.init capacity) hbase).1

/-- Counterexample to C9 as stated: writing the empty string does not
"split its content into lines and extend the newest line" — `splitlines`
returns no lines and the write raises `IndexError` (utils.py line 74,
`lines[0]` on an empty list). -/
theorem log_buffer_write_empty_counterexample :
    (LogBuffer.init 1000).write [] = .error .indexError ∧
    splitlines [] = [] := ⟨rfl, rfl⟩

/-- C4 (amended): `get_or_deploy_token` reuses the configured address when
one is present — returning a proxy at that address without deploying, and
raising when the address has no deployed code — and otherwise deploys a new
instance whose name and symbol are the configured ones when present and
generated defaults otherwise, requesting one confirmation for the
deployment. -/
theorem get_or_deploy_token_spec (hasCode : String → Bool)
    (tokenId now : String) (cfg : TokenConfigModel) (addr : String)
    (haddr : addr ≠ "") :
    (hasCode addr = true →
      get_or_deploy_token hasCode tokenId now
          ⟨some { cfg with address := some addr }⟩ =
        .ok (.reused addr)) ∧
    (hasCode addr = false →
      get_or_deploy_token hasCode tokenId now
          ⟨some { cfg with address := some addr }⟩ =
        .error (.addressWithoutCode addr)) ∧
    (get_or_deploy_token hasCode tokenId now
        ⟨some { cfg with address := none }⟩ =
      .ok (.deployed (cfg.name.getD (defaultTokenName tokenId now))
        (cfg.symbol.getD (defaultTokenSymbol tokenId)) 1)) ∧
    (get_or_deploy_token hasCode tokenId now ⟨none⟩ =
      .ok (.deployed (defaultTokenName tokenId now)
        (defaultTokenSymbol tokenId) 1)) := by
  refine ⟨fun hc => ?_, fun hc => ?_, ?_, ?_⟩ <;>
    simp [get_or_deploy_token, check_address_has_code, deployTokenBranch,
      haddr, *]

/-- Counterexample to C4 as stated: with a configured name and symbol and no
configured address, the deployed token uses the configured values, not
generated ones. -/
theorem get_or_deploy_token_configured_name_counterexample :
    get_or_deploy_token (fun _ => true) "uuid0" "now0"
        ⟨some ⟨none, some "MyToken", some "MTK"⟩⟩ =
      .ok (.deployed "MyToken" "MTK" 1) ∧
    "MyToken" ≠ defaultTokenName "uuid0" "now0" ∧
    "MTK" ≠ defaultTokenSymbol "uuid0" :=
  ⟨rfl, by decide, by decide⟩

/-- Witness for C4 at concrete inputs. -/
theorem get_or_deploy_token_spec_witness :
    ("0xabc" ≠ "") ∧
    (((fun _ : String => true) "0xabc" = true →
      get_or_deploy_token (fun _ => true) "u" "n"
          ⟨some { (⟨none, none, none⟩ : TokenConfigModel) with
            address := some "0xabc" }⟩ =
        .ok (.reused "0xabc")) ∧
    ((fun _ : String => true) "0xabc" = false →
      get_or_deploy_token (fun _ => true) "u" "n"
          ⟨some { (⟨none, none, none⟩ : TokenConfigModel) with
            address := some "0xabc" }⟩ =
        .error (.addressWithoutCode "0xabc")) ∧
    (get_or_deploy_token (fun _ => true) "u" "n"
        ⟨some { (⟨none, none, none⟩ : TokenConfigModel) with
          address := none }⟩ =
      .ok (.deployed
        ((⟨none, none, none⟩ : TokenConfigModel).name.getD
          (defaultTokenName "u" "n"))
        ((⟨none, none, none⟩ : TokenConfigModel).symbol.getD
          (defaultTokenSymbol "u")) 1)) ∧
    (get_or_deploy_token (fun _ => true) "u" "n" ⟨none⟩ =
      .ok (.deployed (defaultTokenName "u" "n")
        (defaultTokenSymbol "u") 1))) :=
  ⟨by decide,
    get_or_deploy_token_spec (fun _ => true) "u" "n" ⟨none, none, none⟩
      "0xabc" (by decide)⟩

/-! ### Lemmas about `pollPass` and traces -/

theorem pollPass_not_err (q : Query) (hq : ∀ t h, q t h ≠ .netError) :
    ∀ (toPoll pending : List TxHash) (t : Nat),
      (pollPass q toPoll pending t).1 = false := by
  intro toPoll
  induction toPoll with
  | nil => intro pending t; rfl
  | cons h rest ih =>
    intro pending t
    rcases hqe : q t h with tx | _
    · simp [pollPass, hqe, ih]
    · exact absurd hqe (hq t h)

theorem pollPass_sublist (q : Query) :
    ∀ (toPoll pending : List TxHash) (t : Nat),
      List.Sublist (pollPass q toPoll pending t).2.1 pending := by
  intro toPoll
  induction toPoll with
  | nil => intro pending t; exact List.Sublist.refl _
  | cons h rest ih =>
    intro pending t
    rcases hqe : q t h with tx | _
    · by_cases hinc : txIncluded (.found tx) = true
      · simp only [pollPass, hqe, hinc, if_pos]
        exact (ih _ _).trans (List.erase_sublist _ _)
      · simp only [pollPass, hqe, hinc, if_neg, Bool.false_eq_true,
          not_false_iff]
        simpa using ih pending (t + 1)
    · simp [pollPass, hqe]

theorem observedIncluded_append (a b : List Event) (x : TxHash) :
    observedIncluded (a ++ b) x =
      (observedIncluded a x || observedIncluded b x) := by
  simp [observedIncluded, List.any_append]

theorem observedIncluded_cons_poll (h : TxHash) (t : Nat) (inc : Bool)
    (evs : List Event) (x : TxHash) :
    observedIncluded (.poll h t inc :: evs) x =
      ((inc && h == x) || observedIncluded evs x) := by
  simp [observedIncluded]

theorem observedIncluded_iterLogEvs (timeout : Nat) (s : WaitState)
    (x : TxHash) : observedIncluded (iterLogEvs timeout s) x = false := by
  unfold iterLogEvs
  split <;> rfl

theorem filter_not_or (l : List TxHash) (p r : TxHash → Bool) :
    l.filter (fun x => !(p x || r x)) =
      (l.filter (fun x => !p x)).filter (fun x => !r x) := by
  rw [List.filter_filter]
  apply List.filter_congr
  intro x _
  cases hp : p x <;> cases hr : r x <;> rfl

theorem unconfirmedIds_nil (txs : List TxHash) :
    unconfirmedIds txs [] = txs := by
  simp [unconfirmedIds, observedIncluded]

theorem unconfirmedIds_append (txs : List TxHash) (a b : List Event) :
    unconfirmedIds txs (a ++ b) = unconfirmedIds (unconfirmedIds txs a) b := by
  simp only [unconfirmedIds]
  rw [← filter_not_or]
  apply List.filter_congr
  intro x _
  rw [observedIncluded_append]

theorem unconfirmedIds_iterLogEvs (txs : List TxHash) (timeout : Nat)
    (s : WaitState) : unconfirmedIds txs (iterLogEvs timeout s) = txs := by
  simp [unconfirmedIds, observedIncluded_iterLogEvs]

theorem erase_eq_filter_not_beq :
    ∀ (l : List TxHash), l.Nodup → ∀ a : TxHash,
      l.erase a = l.filter (fun x => !(a == x)) := by
  intro l
  induction l with
  | nil => intro _ a; rfl
  | cons b bs ih =>
    intro hnd a
    rw [List.nodup_cons] at hnd
    by_cases hba : b = a
    · subst hba
      rw [List.erase_cons_head, List.filter_cons]
      simp only [beq_self_eq_true, Bool.not_true, Bool.false_eq_true,
        if_neg, not_false_iff]
      refine (List.filter_eq_self.mpr ?_).symm
      intro x hx
      have hbx : b ≠ x := fun he => hnd.1 (he ▸ hx)
      simp [hbx]
    · have hab : a ≠ b := fun he => hba he.symm
      have habeq : (a == b) = false := beq_eq_false_iff_ne.mpr hab
      rw [List.erase_cons_tail (by simpa using hba), List.filter_cons]
      simp [habeq, ih hnd.2 a]

theorem pollPass_pending_spec (q : Query) (hq : ∀ t h, q t h ≠ .netError) :
    ∀ (toPoll pending : List TxHash) (t : Nat), pending.Nodup →
      (pollPass q toPoll pending t).2.1 =
        unconfirmedIds pending (pollPass q toPoll pending t).2.2 := by
  intro toPoll
  induction toPoll with
  | nil => intro pending t _; simp [pollPass, unconfirmedIds_nil]
  | cons h rest ih =>
    intro pending t hnd
    rcases hqe : q t h with tx | _
    case netError => exact absurd hqe (hq t h)
    case found =>
    by_cases hinc : txIncluded (.found tx) = true
    · simp only [pollPass, hqe, hinc, if_pos]
      rw [ih (pending.erase h) (t + 1) (hnd.erase h)]
      generalize (pollPass q rest (pending.erase h) (t + 1)).2.2 = evs
      simp only [unconfirmedIds]
      rw [erase_eq_filter_not_beq pending hnd h,
        ← filter_not_or pending (fun x => h == x)
          (fun x => observedIncluded evs x)]
      apply List.filter_congr
      intro x _
      rw [observedIncluded_cons_poll]
      simp
    · have hinc' : txIncluded (.found tx) = false := by
        simpa using hinc
      simp only [pollPass, hqe, hinc', Bool.false_eq_true, if_neg,
        not_false_iff]
      rw [ih pending (t + 1) hnd]
      simp only [unconfirmedIds]
      apply List.filter_congr
      intro x _
      rw [observedIncluded_cons_poll]
      simp [hinc']

theorem waitLoopF_eq_waitLoop (q : Query) (timeout : Nat) :
    ∀ (fuel : Nat) (s : WaitState), timeout - s.elapsed < fuel →
      waitLoopF q timeout fuel s = some (waitLoop q timeout s) := by
  intro fuel
  induction fuel with
  | zero => intro s h; exact absurd h (Nat.not_lt_zero _)
  | succ n ih =>
    intro s hfuel
    rw [waitLoop]
    by_cases hc : s.pending ≠ [] ∧ s.elapsed < timeout
    · rw [dif_pos hc]
      simp only [waitLoopF]
      rw [if_pos hc]
      by_cases herr : (pollPass q s.pending s.pending s.elapsed).1 = true
      · rw [if_pos herr, if_pos herr]
      · rw [if_neg herr, if_neg herr]
        have hlen : 0 < s.pending.length := List.length_pos.mpr hc.1
        have hrec := ih (iterNext q timeout s) (by
          simp only [iterNext]
          omega)
        rw [hrec]
    · rw [dif_neg hc]
      simp only [waitLoopF]
      rw [if_neg hc]

/-- The fuel `timeout + 1` always suffices for the loop of `wait_for_txs`:
shared bridge between the fuel-indexed and the recursive embedding. -/
theorem wait_for_txs_fuel_run (q : Query) (txs : List TxHash)
    (timeout : Nat) :
    waitLoopF q timeout (timeout + 1) ⟨txs, 0, 0⟩ =
      some (wait_for_txs q txs timeout) := by
  unfold wait_for_txs
  exact waitLoopF_eq_waitLoop q timeout (timeout + 1) ⟨txs, 0, 0⟩ (by omega)

theorem waitLoopF_result_spec (q : Query) (timeout : Nat)
    (hq : ∀ t h, q t h ≠ .netError) :
    ∀ (fuel : Nat) (s : WaitState) (p : Except WaitError Unit × List Event),
      s.pending.Nodup → waitLoopF q timeout fuel s = some p →
      p.1 = (if (unconfirmedIds s.pending p.2).isEmpty then Except.ok ()
        else Except.error
          (.scenarioTxError (unconfirmedIds s.pending p.2))) := by
  intro fuel
  induction fuel with
  | zero => intro s p _ hstep; simp [waitLoopF] at hstep
  | succ n ih =>
    intro s p hnd hstep
    simp only [waitLoopF] at hstep
    by_cases hc : s.pending ≠ [] ∧ s.elapsed < timeout
    · rw [if_pos hc] at hstep
      have herr : (pollPass q s.pending s.pending s.elapsed).1 = false :=
        pollPass_not_err q hq s.pending s.pending s.elapsed
      rw [if_neg (by simp [herr])] at hstep
      rcases hrec : waitLoopF q timeout n (iterNext q timeout s) with _ | pr
      · rw [hrec] at hstep
        exact absurd hstep (by simp)
      · rcases pr with ⟨r, evs⟩
        rw [hrec] at hstep
        have hp := Option.some.inj hstep
        rw [← hp]
        have hnd' : (iterNext q timeout s).pending.Nodup := by
          simp only [iterNext]
          exact (pollPass_sublist q s.pending s.pending s.elapsed).nodup hnd
        have hihr := ih (iterNext q timeout s) (r, evs) hnd' hrec
        simp only [iterNext] at hihr
        simp only []
        rw [unconfirmedIds_append, unconfirmedIds_append,
          unconfirmedIds_iterLogEvs,
          ← pollPass_pending_spec q hq s.pending s.pending s.elapsed hnd]
        exact hihr
    · rw [if_neg hc] at hstep
      have hp := Option.some.inj hstep
      rw [← hp]
      by_cases hnil : s.pending = []
      · simp [hnil, unconfirmedIds_nil]
      · simp [hnil, unconfirmedIds_nil]

/-- C1: `wait_for_txs` raises `ScenarioTxError` exactly when, at the moment
the loop gives up, some identifier was never observed as included, and the
error names exactly the identifiers never observed as included — identifiers
already observed as included are not reported; otherwise it returns
successfully, with no partial-success return. -/
theorem wait_for_txs_timeout_spec (q : Query) (txs : List TxHash)
    (timeout : Nat) (hnd : txs.Nodup) (hq : ∀ t h, q t h ≠ .netError) :
    (wait_for_txs q txs timeout).1 =
      (if (unconfirmedIds txs (wait_for_txs q txs timeout).2).isEmpty
        then Except.ok ()
        else Except.error (.scenarioTxError
          (unconfirmedIds txs (wait_for_txs q txs timeout).2))) := by
  have hrun := wait_for_txs_fuel_run q txs timeout
  exact waitLoopF_result_spec q timeout hq (timeout + 1) ⟨txs, 0, 0⟩
    (wait_for_txs q txs timeout) hnd hrun

/-- Witness for C1 at concrete inputs. -/
theorem wait_for_txs_timeout_spec_witness :
    (["t1", "t2"] : List TxHash).Nodup ∧
    (∀ t h, qAlwaysIncluded t h ≠ .netError) ∧
    ((wait_for_txs qAlwaysIncluded ["t1", "t2"] 20).1 =
      (if (unconfirmedIds ["t1", "t2"]
            (wait_for_txs qAlwaysIncluded ["t1", "t2"] 20).2).isEmpty
        then Except.ok ()
        else Except.error (.scenarioTxError (unconfirmedIds ["t1", "t2"]
          (wait_for_txs qAlwaysIncluded ["t1", "t2"] 20).2)))) :=
  ⟨by decide, fun _ _ hqe => QueryResult.noConfusion hqe,
    wait_for_txs_timeout_spec qAlwaysIncluded ["t1", "t2"] 20 (by decide)
      (fun _ _ hqe => QueryResult.noConfusion hqe)⟩

/-- C5: for every chain-client behaviour (including transactions that never
confirm), every transaction set and every timeout, `wait_for_txs` terminates
— the fuel-indexed transcription of the polling loop halts within
`timeout + 1` iterations because the deadline bounds the loop (each
iteration costs at least 5 ticks), and it yields exactly the value that
`wait_for_txs` returns or raises. -/
theorem wait_for_txs_terminates (q : Query) (txs : List TxHash)
    (timeout : Nat) :
    waitLoopF q timeout (timeout + 1) ⟨txs, 0, 0⟩ =
      some (wait_for_txs q txs timeout) :=
  wait_for_txs_fuel_run q txs timeout

/-- Counterexample to C3 as stated: with a client whose single query at tick
0 raises  a network error and that answers normally from tick 1 on, the wait
is aborted by the propagating error instead of continuing to poll until the
deadline. -/
theorem wait_for_txs_transient_failure_counterexample :
    (wait_for_txs qFailsAtZero ["tx1"] 12).1 = .error .netError ∧
    qFailsAtZero 0 "tx1" = .netError ∧
    qFailsAtZero 1 "tx1" = .found (some ⟨some 1⟩) := by
  refine ⟨?_, rfl, rfl⟩
  have h1 := wait_for_txs_fuel_run qFailsAtZero ["tx1"] 12
  have h2 : waitLoopF qFailsAtZero 12 (12 + 1) ⟨["tx1"], 0, 0⟩ =
      some (.error .netError, [.log 0 1 1]) := by rfl
  rw [h2] at h1
  have h3 := Option.some.inj h1
  rw [← h3]

/-- C3 (amended): a network error raised by the chain-state query is not
caught by `wait_for_txs`: the first failing `getTransaction` call aborts the
wait immediately and the exception propagates out of the waiter. -/
theorem wait_for_txs_network_error_propagates (q : Query) (h : TxHash)
    (rest : List TxHash) (timeout : Nat) (h0 : 0 < timeout)
    (hq : q 0 h = .netError) :
    (wait_for_txs q (h :: rest) timeout).1 = .error .netError := by
  have h1 := wait_for_txs_fuel_run q (h :: rest) timeout
  have hpp : (pollPass q (h :: rest) (h :: rest) 0).1 = true := by
    simp [pollPass, hq]
  have h2 : waitLoopF q timeout (timeout + 1) ⟨h :: rest, 0, 0⟩ =
      some (.error .netError,
        iterLogEvs timeout ⟨h :: rest, 0, 0⟩ ++
          (pollPass q (h :: rest) (h :: rest) 0).2.2) := by
    simp only [waitLoopF]
    rw [if_pos ⟨List.cons_ne_nil h rest, h0⟩, if_pos hpp]
  rw [h2] at h1
  have h3 := Option.some.inj h1
  rw [← h3]

/-- Witness for the amended C3 at concrete inputs. -/
theorem wait_for_txs_network_error_propagates_witness :
    (0 < 20) ∧ qFailsAtZero 0 "a" = .netError ∧
    (wait_for_txs qFailsAtZero ["a", "b"] 20).1 = .error .netError :=
  ⟨by decide, rfl,
    wait_for_txs_network_error_propagates qFailsAtZero "a" ["b"] 20
      (by decide) rfl⟩

theorem pollPass_empty_of_included (q : Query)
    (hq : ∀ t h, q t h ≠ .netError) :
    ∀ (toPoll pending : List TxHash) (t : Nat),
      pending ⊆ toPoll → pending.Nodup →
      (∀ h ∈ toPoll, ∀ u, t ≤ u → txIncluded (q u h) = true) →
      (pollPass q toPoll pending t).2.1 = [] := by
  intro toPoll
  induction toPoll with
  | nil =>
    intro pending t hsub _ _
    exact List.subset_nil.mp hsub
  | cons h rest ih =>
    intro pending t hsub hnd hinc
    rcases hqe : q t h with tx | _
    case netError => exact absurd hqe (hq t h)
    case found =>
    have hi : txIncluded (.found tx) = true := by
      have := hinc h (List.mem_cons_self h rest) t (Nat.le_refl t)
      rwa [hqe] at this
    simp only [pollPass, hqe, hi, if_pos]
    apply ih (pending.erase h) (t + 1) ?_ (hnd.erase h) ?_
    · intro x hx
      have hx' := (List.Nodup.mem_erase_iff hnd).mp hx
      rcases List.mem_cons.mp (hsub hx'.2) with heq | hm
      · exact absurd heq hx'.1
      · exact hm
    · intro h' hm u hu
      exact hinc h' (List.mem_cons_of_mem h hm) u (by omega)

theorem waitLoopF_ok_of_confirmed (q : Query) (timeout D : Nat)
    (txs0 : List TxHash) (hq : ∀ t h, q t h ≠ .netError)
    (hD : ∀ h ∈ txs0, ∀ u, D ≤ u → txIncluded (q u h) = true)
    (hto : D + txs0.length + 5 < timeout) :
    ∀ (fuel : Nat) (s : WaitState), timeout - s.elapsed < fuel →
      List.Sublist s.pending txs0 → s.pending.Nodup →
      (s.pending ≠ [] → s.elapsed < timeout) →
      ∃ evs, waitLoopF q timeout fuel s = some (.ok (), evs) := by
  intro fuel
  induction fuel with
  | zero => intro s h _ _ _; exact absurd h (Nat.not_lt_zero _)
  | succ n ih =>
    intro s hfuel hsub hnd hel
    by_cases hnil : s.pending = []
    · refine ⟨[], ?_⟩
      simp only [waitLoopF]
      rw [if_neg (by simp [hnil]), if_pos hnil]
    · have hel' := hel hnil
      have herr : (pollPass q s.pending s.pending s.elapsed).1 = false :=
        pollPass_not_err q hq _ _ _
      have hlen : 0 < s.pending.length := List.length_pos.mpr hnil
      have hlen2 : s.pending.length ≤ txs0.length := hsub.length_le
      by_cases hD' : D ≤ s.elapsed
      · have hemp : (pollPass q s.pending s.pending s.elapsed).2.1 = [] := by
          apply pollPass_empty_of_included q hq s.pending s.pending s.elapsed
            (fun x hx => hx) hnd
          intro h hm u hu
          exact hD h (hsub.subset hm) u (by omega)
        obtain ⟨evs, hevs⟩ := ih (iterNext q timeout s)
          (by simp only [iterNext]; omega)
          (by simp only [iterNext]; rw [hemp]; exact List.nil_sublist txs0)
          (by simp only [iterNext]; rw [hemp]; exact List.nodup_nil)
          (by simp only [iterNext]; rw [hemp]; exact fun hf => absurd rfl hf)
        refine ⟨iterLogEvs timeout s ++
          (pollPass q s.pending s.pending s.elapsed).2.2 ++ evs, ?_⟩
        simp only [waitLoopF]
        rw [if_pos ⟨hnil, hel'⟩, if_neg (by simp [herr]), hevs]
      · push_neg at hD'
        obtain ⟨evs, hevs⟩ := ih (iterNext q timeout s)
          (by simp only [iterNext]; omega)
          (by simp only [iterNext]; exact (pollPass_sublist q _ _ _).trans hsub)
          (by simp only [iterNext]; exact (pollPass_sublist q _ _ _).nodup hnd)
          (by simp only [iterNext]; intro _; omega)
        refine ⟨iterLogEvs timeout s ++
          (pollPass q s.pending s.pending s.elapsed).2.2 ++ evs, ?_⟩
        simp only [waitLoopF]
        rw [if_pos ⟨hnil, hel'⟩, if_neg (by simp [herr]), hevs]

/-- C2: if the chain client never errors and reports every requested
identifier as included in a block from some tick `D` on, with the timeout
leaving room for one full polling pass after `D`, then `wait_for_txs`
returns successfully without raising. -/
theorem wait_for_txs_all_confirmed_ok (q : Query) (txs : List TxHash)
    (timeout D : Nat) (hnd : txs.Nodup) (hq : ∀ t h, q t h ≠ .netError)
    (hD : ∀ h ∈ txs, ∀ u, D ≤ u → txIncluded (q u h) = true)
    (hto : D + txs.length + 5 < timeout) :
    (wait_for_txs q txs timeout).1 = .ok () := by
  obtain ⟨evs, hevs⟩ := waitLoopF_ok_of_confirmed q timeout D txs hq hD hto
    (timeout + 1) ⟨txs, 0, 0⟩ (by show timeout - 0 < timeout + 1; omega)
    (List.Sublist.refl txs) hnd (fun _ => by show (0 : Nat) < timeout; omega)
  have hrun := wait_for_txs_fuel_run q txs timeout
  rw [hevs] at hrun
  have h3 := Option.some.inj hrun
  rw [← h3]

/-- Witness for C2 at concrete inputs: `tx1` confirms immediately, `tx2`
from tick 18 on, with timeout 30 ticks. -/
theorem wait_for_txs_all_confirmed_ok_witness :
    (["tx1", "tx2"] : List TxHash).Nodup ∧
    (∀ t h, qConfirmLate t h ≠ .netError) ∧
    (∀ h ∈ (["tx1", "tx2"] : List TxHash), ∀ u, 18 ≤ u →
      txIncluded (qConfirmLate u h) = true) ∧
    (18 + (["tx1", "tx2"] : List TxHash).length + 5 < 30) ∧
    (wait_for_txs qConfirmLate ["tx1", "tx2"] 30).1 = .ok () := by
  have hq : ∀ t h, qConfirmLate t h ≠ .netError := by
    intro t h
    unfold qConfirmLate
    split
    · exact fun hc => QueryResult.noConfusion hc
    · split
      · exact fun hc => QueryResult.noConfusion hc
      · exact fun hc => QueryResult.noConfusion hc
  have hD : ∀ h ∈ (["tx1", "tx2"] : List TxHash), ∀ u, 18 ≤ u →
      txIncluded (qConfirmLate u h) = true := by
    intro h hm u hu
    rcases List.mem_cons.mp hm with rfl | hm2
    · rfl
    · rcases List.mem_cons.mp hm2 with rfl | hm3
      · have hne : (("tx2" : TxHash) == "tx1") = false := by decide
        simp [qConfirmLate, hne, hu, txIncluded]
      · exact absurd hm3 (List.not_mem_nil _)
  exact ⟨by decide, hq, hD, by decide,
    wait_for_txs_all_confirmed_ok qConfirmLate ["tx1", "tx2"] 30 18
      (by decide) hq hD (by decide)⟩

theorem storeGet_set_ne (st : Store) (ref i : Nat) (v : List TxHash)
    (hi : i ≠ ref) : storeGet (st.set ref v) i = storeGet st i := by
  simp only [storeGet, List.getD_eq_getElem?_getD]
  rw [List.getElem?_set_ne (fun he => hi he.symm)]

theorem pollPassStore_frame (q : Query) :
    ∀ (l : List TxHash) (st : Store) (ref t i : Nat), i ≠ ref →
      storeGet (pollPassStore q l st ref t).2 i = storeGet st i := by
  intro l
  induction l with
  | nil => intro st ref t i _; rfl
  | cons h rest ih =>
    intro st ref t i hi
    rcases hqe : q t h with tx | _
    · by_cases hinc : txIncluded (.found tx) = true
      · simp only [pollPassStore, hqe, hinc, if_pos]
        rw [ih _ ref (t + 1) i hi]
        exact storeGet_set_ne st ref i _ hi
      · have hinc' : txIncluded (.found tx) = false := by simpa using hinc
        simp only [pollPassStore, hqe, hinc', Bool.false_eq_true, if_neg,
          not_false_iff]
        exact ih st ref (t + 1) i hi
    · simp [pollPassStore, hqe]

theorem waitLoopStore_frame (q : Query) (timeout ref : Nat) :
    ∀ (n : Nat) (st : Store) (outstanding elapsed i : Nat),
      timeout - elapsed ≤ n → i ≠ ref →
      storeGet (waitLoopStore q timeout st ref outstanding elapsed).2 i =
        storeGet st i := by
  intro n
  induction n with
  | zero =>
    intro st outv el i hle hi
    rw [waitLoopStore, dif_neg (fun hc => by omega)]
  | succ n ih =>
    intro st outv el i hle hi
    rw [waitLoopStore]
    by_cases hc : storeGet st ref ≠ [] ∧ el < timeout
    · rw [dif_pos hc]
      by_cases herr : (pollPassStore q (storeGet st ref) st ref el).1 = true
      · rw [if_pos herr]
        exact pollPassStore_frame q _ st ref el i hi
      · rw [if_neg herr]
        rw [ih _ _ _ i (by omega) hi]
        exact pollPassStore_frame q _ st ref el i hi
    · rw [dif_neg hc]

/-- C6: the caller's transaction list is untouched by `wait_for_txs`: the
function copies the list (utils.py line 97) and removes confirmed hashes
only from the copy, so whether the call returns or raises, the caller's
cell of the store holds exactly the list it held before the call. -/
theorem wait_for_txs_store_preserves_caller (q : Query) (st : Store)
    (ref timeout : Nat) (href : ref < st.length) :
    storeGet (wait_for_txs_store q st ref timeout).2 ref = storeGet st ref := by
  unfold wait_for_txs_store
  rw [waitLoopStore_frame q timeout st.length timeout _ 0 0 ref
    (by omega) (by omega)]
  simp only [storeGet, List.getD_eq_getElem?_getD]
  rw [List.getElem?_append_left href]

/-- Witness for C6 at concrete inputs. -/
theorem wait_for_txs_store_preserves_caller_witness :
    (0 < ([["a"]] : Store).length) ∧
    storeGet (wait_for_txs_store qAlwaysIncluded [["a"]] 0 12).2 0 =
      storeGet [["a"]] 0 :=
  ⟨by decide,
    wait_for_txs_store_preserves_caller qAlwaysIncluded [["a"]] 0 12
      (by decide)⟩

theorem pollTimes_append (a b : List Event) :
    pollTimes (a ++ b) = pollTimes a ++ pollTimes b := by
  simp [pollTimes, List.filterMap_append]

theorem logEntries_append (a b : List Event) :
    logEntries (a ++ b) = logEntries a ++ logEntries b := by
  simp [logEntries, List.filterMap_append]

theorem pollTimes_iterLogEvs (timeout : Nat) (s : WaitState) :
    pollTimes (iterLogEvs timeout s) = [] := by
  unfold iterLogEvs
  split <;> rfl

theorem logEntries_cons_poll (h : TxHash) (t : Nat) (b : Bool)
    (evs : List Event) : logEntries (.poll h t b :: evs) = logEntries evs :=
  rfl

theorem logEntries_cons_log (t o r : Nat) (evs : List Event) :
    logEntries (.log t o r :: evs) = (t, o, r) :: logEntries evs :=
  rfl

theorem logEntries_nil : logEntries [] = [] := rfl

theorem logEntries_pollPass (q : Query) :
    ∀ (toPoll pending : List TxHash) (t : Nat),
      logEntries (pollPass q toPoll pending t).2.2 = [] := by
  intro toPoll
  induction toPoll with
  | nil => intro pending t; rfl
  | cons h rest ih =>
    intro pending t
    rcases hqe : q t h with tx | _
    · simp [pollPass, hqe, logEntries_cons_poll, ih]
    · simp [pollPass, hqe, logEntries]

theorem pollTimes_pollPass (q : Query) :
    ∀ (toPoll pending : List TxHash) (t : Nat),
      ∃ k, k ≤ toPoll.length ∧
        pollTimes (pollPass q toPoll pending t).2.2 = List.range' t k ∧
        ((pollPass q toPoll pending t).1 = false → k = toPoll.length) := by
  intro toPoll
  induction toPoll with
  | nil => intro pending t; exact ⟨0, Nat.le_refl 0, rfl, fun _ => rfl⟩
  | cons h rest ih =>
    intro pending t
    rcases hqe : q t h with tx | _
    · obtain ⟨k, hk, hkt, hkf⟩ :=
        ih (if txIncluded (.found tx) then pending.erase h else pending) (t + 1)
      refine ⟨k + 1, by simpa using Nat.succ_le_succ hk, ?_, ?_⟩
      · simp only [pollPass, hqe, pollTimes, List.filterMap_cons]
        rw [List.range'_succ]
        simp only [pollTimes] at hkt
        rw [hkt]
      · intro hf
        simp only [pollPass, hqe] at hf
        rw [hkf hf]
        simp
    · refine ⟨0, Nat.zero_le _, ?_, ?_⟩
      · simp [pollPass, hqe, pollTimes]
      · intro hf
        simp [pollPass, hqe] at hf

theorem chain'_pollGap_range' : ∀ (k t : Nat),
    List.Chain' pollGap (List.range' t k) := by
  intro k
  induction k with
  | zero => intro t; exact List.chain'_nil
  | succ n ih =>
    intro t
    rw [List.range'_succ, List.chain'_cons']
    refine ⟨?_, ih (t + 1)⟩
    intro y hy
    cases n with
    | zero => simp at hy
    | succ m =>
      rw [List.range'_succ] at hy
      simp only [List.head?_cons, Option.mem_def, Option.some.injEq] at hy
      subst hy
      exact ⟨by omega, by omega⟩

theorem range'_pollGap_getLast? : ∀ (m t : Nat),
    (List.range' t (m + 1)).getLast? = some (t + m) := by
  intro m
  induction m with
  | zero => intro t; simp [List.range'_succ]
  | succ n ih =>
    intro t
    rw [List.range'_succ, List.range'_succ, List.getLast?_cons_cons]
    have h2 := ih (t + 1)
    rw [List.range'_succ] at h2
    rw [h2]
    have h3 : t + 1 + n = t + (n + 1) := by omega
    rw [h3]

theorem logCond_cases {timeout : Nat} {s : WaitState}
    (h : logCond timeout s = true) :
    ((timeout - s.elapsed) / 10) % 10 = 0 ∨
      s.pending.length ≠ s.outstanding := by
  unfold logCond at h
  rcases Bool.or_eq_true_iff.mp h with h1 | h2
  · exact Or.inr (bne_iff_ne.mp h1).symm
  · exact Or.inl (beq_iff_eq.mp h2)

theorem waitLoopF_pollTimes (q : Query) (timeout : Nat) :
    ∀ (fuel : Nat) (s : WaitState) (p : Except WaitError Unit × List Event),
      waitLoopF q timeout fuel s = some p →
      List.Chain' pollGap (pollTimes p.2) ∧
      (∀ u ∈ (pollTimes p.2).head?, u = s.elapsed) := by
  intro fuel
  induction fuel with
  | zero => intro s p hstep; simp [waitLoopF] at hstep
  | succ n ih =>
    intro s p hstep
    simp only [waitLoopF] at hstep
    by_cases hc : s.pending ≠ [] ∧ s.elapsed < timeout
    · rw [if_pos hc] at hstep
      obtain ⟨k, hk, hkt, hkf⟩ :=
        pollTimes_pollPass q s.pending s.pending s.elapsed
      have hlen : 0 < s.pending.length := List.length_pos.mpr hc.1
      by_cases herr : (pollPass q s.pending s.pending s.elapsed).1 = true
      · rw [if_pos herr] at hstep
        have hp := Option.some.inj hstep
        rw [← hp]
        constructor
        · simp only [pollTimes_append, pollTimes_iterLogEvs, List.nil_append,
            hkt]
          exact chain'_pollGap_range' k s.elapsed
        · intro u hu
          simp only [pollTimes_append, pollTimes_iterLogEvs, List.nil_append,
            hkt] at hu
          cases k with
          | zero => simp at hu
          | succ m =>
            rw [List.range'_succ] at hu
            simp only [List.head?_cons, Option.mem_def,
              Option.some.injEq] at hu
            exact hu.symm
      · rw [if_neg herr] at hstep
        rcases hrec : waitLoopF q timeout n (iterNext q timeout s) with _ | pr
        · rw [hrec] at hstep
          exact absurd hstep (by simp)
        · rcases pr with ⟨r, evs⟩
          rw [hrec] at hstep
          have hp := Option.some.inj hstep
          rw [← hp]
          have hihr := ih (iterNext q timeout s) (r, evs) hrec
          have hkeq : k = s.pending.length := hkf (by simpa using herr)
          constructor
          · simp only [pollTimes_append, pollTimes_iterLogEvs,
              List.nil_append, hkt]
            rw [List.chain'_append]
            refine ⟨chain'_pollGap_range' k s.elapsed, hihr.1, ?_⟩
            intro x hx y hy
            have hy' := hihr.2 y hy
            simp only [iterNext] at hy'
            rcases k with _ | m
            · exact absurd hkeq.symm (by omega)
            · rw [range'_pollGap_getLast? m s.elapsed] at hx
              simp only [Option.mem_def, Option.some.injEq] at hx
              subst hx
              subst hy'
              have hm : m + 1 = s.pending.length := hkeq
              exact ⟨by omega, by omega⟩
          · intro u hu
            simp only [pollTimes_append, pollTimes_iterLogEvs,
              List.nil_append, hkt] at hu
            rcases k with _ | m
            · exact absurd hkeq.symm (by omega)
            · rw [List.range'_succ] at hu
              simp only [List.cons_append, List.head?_cons, Option.mem_def,
                Option.some.injEq] at hu
              exact hu.symm
    · rw [if_neg hc] at hstep
      have hp := Option.some.inj hstep
      rw [← hp]
      exact ⟨List.chain'_nil, fun u hu => by simp [pollTimes] at hu⟩


theorem waitLoopF_log_spec (q : Query) (timeout : Nat) :
    ∀ (fuel : Nat) (s : WaitState) (p : Except WaitError Unit × List Event),
      waitLoopF q timeout fuel s = some p →
      List.Chain' logJustified (logEntries p.2) ∧
      (∀ e ∈ (logEntries p.2).head?,
        e.2.2 % 10 = 0 ∨ e.2.1 ≠ s.outstanding) ∧
      (∀ e ∈ logEntries p.2, e.2.2 = (timeout - e.1) / 10) := by
  intro fuel
  induction fuel with
  | zero => intro s p hstep; simp [waitLoopF] at hstep
  | succ n ih =>
    intro s p hstep
    simp only [waitLoopF] at hstep
    by_cases hc : s.pending ≠ [] ∧ s.elapsed < timeout
    · rw [if_pos hc] at hstep
      by_cases herr : (pollPass q s.pending s.pending s.elapsed).1 = true
      · rw [if_pos herr] at hstep
        have hp := Option.some.inj hstep
        rw [← hp]
        simp only [logEntries_append, logEntries_pollPass, List.append_nil]
        by_cases hlog : logCond timeout s = true
        · have hev : iterLogEvs timeout s =
              [.log s.elapsed s.pending.length
                ((timeout - s.elapsed) / 10)] := by
            unfold iterLogEvs
            rw [if_pos hlog]
          rw [hev, logEntries_cons_log, logEntries_nil]
          refine ⟨List.chain'_singleton _, ?_, ?_⟩
          · intro e he
            simp only [List.head?_cons, Option.mem_def,
              Option.some.injEq] at he
            rw [← he]
            exact logCond_cases hlog
          · intro e he
            rcases List.mem_cons.mp he with rfl | hmem
            · rfl
            · exact absurd hmem (List.not_mem_nil e)
        · have hev : iterLogEvs timeout s = [] := by
            unfold iterLogEvs
            rw [if_neg hlog]
          rw [hev, logEntries_nil]
          exact ⟨List.chain'_nil, by simp, by simp⟩
      · rw [if_neg herr] at hstep
        rcases hrec : waitLoopF q timeout n (iterNext q timeout s) with _ | pr
        · rw [hrec] at hstep
          exact absurd hstep (by simp)
        · rcases pr with ⟨r, evs⟩
          rw [hrec] at hstep
          have hp := Option.some.inj hstep
          rw [← hp]
          have hihr := ih (iterNext q timeout s) (r, evs) hrec
          simp only [logEntries_append, logEntries_pollPass, List.append_nil,
            List.nil_append]
          by_cases hlog : logCond timeout s = true
          · have hout : (iterNext q timeout s).outstanding =
                s.pending.length := by
              simp [iterNext, iterOut, hlog]
            have hev : iterLogEvs timeout s =
                [.log s.elapsed s.pending.length
                  ((timeout - s.elapsed) / 10)] := by
              unfold iterLogEvs
              rw [if_pos hlog]
            rw [hev, logEntries_cons_log, logEntries_nil, List.singleton_append]
            refine ⟨?_, ?_, ?_⟩
            · rw [List.chain'_cons']
              refine ⟨?_, hihr.1⟩
              intro y hy
              have hj := hihr.2.1 y hy
              rw [hout] at hj
              exact hj
            · intro e he
              simp only [List.head?_cons, Option.mem_def,
                Option.some.injEq] at he
              rw [← he]
              exact logCond_cases hlog
            · intro e he
              rcases List.mem_cons.mp he with rfl | hmem
              · rfl
              · exact hihr.2.2 e hmem
          · have hout : (iterNext q timeout s).outstanding =
                s.outstanding := by
              simp [iterNext, iterOut, hlog]
            have hev : iterLogEvs timeout s = [] := by
              unfold iterLogEvs
              rw [if_neg hlog]
            rw [hev, logEntries_nil, List.nil_append]
            refine ⟨hihr.1, ?_, hihr.2.2⟩
            intro e he
            have hj := hihr.2.1 e he
            rw [hout] at hj
            exact hj
    · rw [if_neg hc] at hstep
      have hp := Option.some.inj hstep
      rw [← hp]
      exact ⟨List.chain'_nil, by simp [logEntries], by simp [logEntries]⟩

/-- C7: in every run of `wait_for_txs`, consecutive transaction-level polls
are between 1 and 6 ticks (0.1 s and 0.6 s) apart; every status-log entry
records `int(remaining_timeout)` at its tick; each status-log entry after
the first is emitted only when the remaining whole seconds are a multiple of
ten (the roughly-ten-second periodic condition) or the outstanding count
changed since the previous entry; and any iteration whose outstanding count
differs from the last logged value emits a status-log entry at its tick. -/
theorem wait_for_txs_polling_cadence (q : Query) (timeout : Nat)
    (txs : List TxHash) (fuel : Nat) (s : WaitState)
    (p : Except WaitError Unit × List Event)
    (hstep : waitLoopF q timeout fuel s = some p)
    (hact : s.pending ≠ []) (hel : s.elapsed < timeout)
    (hchange : s.outstanding ≠ s.pending.length) :
    List.Chain' pollGap (pollTimes (wait_for_txs q txs timeout).2) ∧
    List.Chain' logJustified (logEntries (wait_for_txs q txs timeout).2) ∧
    (∀ e ∈ logEntries (wait_for_txs q txs timeout).2,
      e.2.2 = (timeout - e.1) / 10) ∧
    Event.log s.elapsed s.pending.length ((timeout - s.elapsed) / 10) ∈ p.2 := by
  have hrun := wait_for_txs_fuel_run q txs timeout
  have hpt := waitLoopF_pollTimes q timeout (timeout + 1) ⟨txs, 0, 0⟩ _ hrun
  have hls := waitLoopF_log_spec q timeout (timeout + 1) ⟨txs, 0, 0⟩ _ hrun
  refine ⟨hpt.1, hls.1, hls.2.2, ?_⟩
  rcases fuel with _ | n
  · simp [waitLoopF] at hstep
  · simp only [waitLoopF] at hstep
    rw [if_pos ⟨hact, hel⟩] at hstep
    have hlog : logCond timeout s = true := by
      unfold logCond
      rw [bne_iff_ne.mpr hchange]
      rfl
    have hev : iterLogEvs timeout s =
        [.log s.elapsed s.pending.length ((timeout - s.elapsed) / 10)] := by
      unfold iterLogEvs
      rw [if_pos hlog]
    by_cases herr : (pollPass q s.pending s.pending s.elapsed).1 = true
    · rw [if_pos herr] at hstep
      have hp := Option.some.inj hstep
      rw [← hp]
      simp [hev]
    · rw [if_neg herr] at hstep
      rcases hrec : waitLoopF q timeout n (iterNext q timeout s) with _ | pr
      · rw [hrec] at hstep
        exact absurd hstep (by simp)
      · rcases pr with ⟨r, evs⟩
        rw [hrec] at hstep
        have hp := Option.some.inj hstep
        rw [← hp]
        simp [hev]

/-- Witness for C7 at concrete inputs. -/
theorem wait_for_txs_polling_cadence_witness :
    (waitLoopF qAlwaysIncluded 12 13 ⟨["a"], 0, 0⟩ =
      some (.ok (), [.log 0 1 1, .poll "a" 0 true])) ∧
    ((["a"] : List TxHash) ≠ []) ∧ ((0 : Nat) < 12) ∧
    ((0 : Nat) ≠ (["a"] : List TxHash).length) ∧
    (List.Chain' pollGap
        (pollTimes (wait_for_txs qAlwaysIncluded ["a"] 12).2) ∧
      List.Chain' logJustified
        (logEntries (wait_for_txs qAlwaysIncluded ["a"] 12).2) ∧
      (∀ e ∈ logEntries (wait_for_txs qAlwaysIncluded ["a"] 12).2,
        e.2.2 = (12 - e.1) / 10) ∧
      Event.log 0 1 ((12 - 0) / 10) ∈
        ([Event.log 0 1 1, Event.poll "a" 0 true] : List Event)) := by
  have h1 : waitLoopF qAlwaysIncluded 12 13 ⟨["a"], 0, 0⟩ =
      some (.ok (), [.log 0 1 1, .poll "a" 0 true]) := rfl
  exact ⟨h1, by decide, by decide, by decide,
    wait_for_txs_polling_cadence qAlwaysIncluded 12 ["a"] 13 ⟨["a"], 0, 0⟩
      (.ok (), [.log 0 1 1, .poll "a" 0 true]) h1 (by decide) (by decide)
      (by decide)⟩
